import Mathlib

/-!
# github-release-feed: the feed merge of `checkUpdates` and the fetch of `getUpdates`

A shallow embedding of `main.go`.

* `time.Time` values are instants; they are integers here, counted from Go's
  zero `time.Time`, so that the zero value (the watermark of a feed that was
  never written) is `0`.
* Pointer fields of the go-github records are `Option`s; dereferencing `nil`
  is a run-time panic, which is the `none` of an `Option` result.
* A Go `error` result is the `Except.error` of an `Except String`.
* `sort.Slice` belongs to Go's standard library.  Its documentation promises a
  sorted rearrangement of the slice and explicitly no stability, so the merge
  is parameterised by a `SliceSorter`: any function honouring that contract.
  What holds for every `SliceSorter` holds for the program.  `sortSlice` is the
  algorithm itself, pattern-defeating quicksort as Go 1.19 and later run it, and
  `goSorter` the instance made of it; it decides what the contract leaves open,
  the order of items with equal `Updated`.
* The log lines written by `checkUpdates` do not touch the feed and are left
  out.
-/

namespace ReleaseFeed

/-! ## Data model -/

/-- An instant, as an offset from Go's zero `time.Time`. -/
abbrev Time := Int

/-- The zero value of `time.Time`. -/
def zeroTime : Time := 0

/-- Go's `t.After(u)`: the instant `t` is strictly later than `u`. -/
def Time.After (t u : Time) : Bool := decide (u < t)

/-- The fields of `feeds.Item` that `getUpdates` fills. -/
structure Item where
  Title : String
  Link : String
  Id : String
  Description : String
  Author : String
  Updated : Time
deriving DecidableEq, Repr

/-- The fields of `feeds.Feed` that `checkUpdates` uses. -/
structure Feed where
  Title : String
  Link : String
  Items : List Item
  Updated : Time
deriving DecidableEq, Repr

/-- The feed stored by `checkUpdates` before its loop starts (`main.go` 103-106);
`title` is `fmt.Sprintf("GitHub %s releases feed", strings.Title(language))`. -/
def newFeed (title : String) : Feed :=
  { Title := title, Link := "https://github.com", Items := [], Updated := zeroTime }

/-! ## `sort.Slice` -/

/-- What `sort.Slice` asks of its `less` function: a strict weak ordering,
given here by asymmetry and transitivity of "not less". -/
structure StrictWeakOrder (less : Item → Item → Bool) : Prop where
  asymm : ∀ a b, less a b = true → less b a = false
  negTrans : ∀ a b c, less a b = false → less b c = false → less a c = false

/-- The contract of `sort.Slice(x, less)`: the slice is rearranged (a
permutation of its elements) so that no element is `less` than one standing
before it.  The order of elements that compare equal is left open. -/
structure SliceSorter where
  sort : (Item → Item → Bool) → List Item → List Item
  perm : ∀ less l, (sort less l).Perm l
  sorted : ∀ less l, StrictWeakOrder less →
    (sort less l).Pairwise (fun a b => less b a = false)

/-- The insertion step of `fallbackSort`: `x` stands right after the sorted
part, whose elements are given last first, and is swapped towards the front
while it is `less` than its left neighbour. -/
def sinkLeft (less : Item → Item → Bool) (x : Item) : List Item → List Item
  | [] => [x]
  | y :: ys => if less x y then y :: sinkLeft less x ys else x :: y :: ys

/-- A plain insertion sort on lists.  It is not part of the program: it is the
value `checkedSortSlice` takes on an input on which the outcome of `sortSlice`
were not a sorted rearrangement. -/
def fallbackSort (less : Item → Item → Bool) (l : List Item) : List Item :=
  (l.foldl (fun sortedRev x => sinkLeft less x sortedRev) []).reverse

/-! ### The algorithm of `sort.Slice`

Go's `sort.Slice` runs `pdqsort_func` (`sort/zsortfunc.go`, Go 1.19 and later) on
the slice: insertion sort on ranges of at most 12 elements, and above that
pivot choice, partition and pattern breaking.  The slice is a list here, read
and swapped by index. -/

/-- The `less` of `sort.Slice` at two indices of the slice. -/
def lessAt (less : Item → Item → Bool) (d : List Item) (i j : Nat) : Bool :=
  match d[i]?, d[j]? with
  | some x, some y => less x y
  | _, _ => false

/-- The swap of two elements of the slice, `reflectlite.Swapper`. -/
def swapAt (d : List Item) (i j : Nat) : List Item :=
  match d[i]?, d[j]? with
  | some x, some y => (d.set i y).set j x
  | _, _ => d

/-- The inner loop of `insertionSort_func`: the element at `j` is swapped
towards `a` while it is `less` than its left neighbour. -/
def sinkAt (less : Item → Item → Bool) (a : Nat) : Nat → List Item → List Item
  | 0, d => d
  | j + 1, d =>
    if a < j + 1 && lessAt less d (j + 1) j then sinkAt less a j (swapAt d (j + 1) j) else d

/-- The function `insertionSort_func` on `data[a:b]`. -/
def insertionSortRange (less : Item → Item → Bool) (d : List Item) (a b : Nat) : List Item :=
  (List.range' (a + 1) (b - (a + 1))).foldl (fun d i => sinkAt less a i d) d

/-- The function `siftDown_func`; the first argument bounds the loop. -/
def siftDown (less : Item → Item → Bool) (hi first : Nat) : Nat → Nat → List Item → List Item
  | 0, _, d => d
  | fuel + 1, root, d =>
    let child := 2 * root + 1
    if hi ≤ child then d
    else
      let child :=
        if child + 1 < hi && lessAt less d (first + child) (first + child + 1) then child + 1
        else child
      if lessAt less d (first + root) (first + child) then
        siftDown less hi first fuel child (swapAt d (first + root) (first + child))
      else d

/-- The function `heapSort_func` on `data[a:b]`. -/
def heapSort (less : Item → Item → Bool) (d : List Item) (a b : Nat) : List Item :=
  let hi := b - a
  let d := (List.range ((hi - 1) / 2 + 1)).reverse.foldl (fun d i => siftDown less hi a hi i d) d
  (List.range hi).reverse.foldl (fun d i => siftDown less i a hi 0 (swapAt d a (a + i))) d

/-- The loop `for i <= j && p(i) { i++ }`; the first argument bounds it. -/
def scanUp (p : Nat → Bool) : Nat → Nat → Nat → Nat
  | 0, i, _ => i
  | fuel + 1, i, j => if i ≤ j && p i then scanUp p fuel (i + 1) j else i

/-- The loop `for i <= j && p(j) { j-- }`; the first argument bounds it. -/
def scanDown (p : Nat → Bool) : Nat → Nat → Nat → Nat
  | 0, _, j => j
  | fuel + 1, i, j => if i ≤ j && p j then scanDown p fuel i (j - 1) else j

/-- The main loop of `partition_func`; returns the slice and `j`. -/
def partitionLoop (less : Item → Item → Bool) (a : Nat) :
    Nat → Nat → Nat → List Item → List Item × Nat
  | 0, _, j, d => (d, j)
  | fuel + 1, i, j, d =>
    let i := scanUp (fun i => lessAt less d i a) d.length i j
    let j := scanDown (fun j => !lessAt less d j a) d.length i j
    if j < i then (d, j) else partitionLoop less a fuel (i + 1) (j - 1) (swapAt d i j)

/-- The function `partition_func`: the slice, the pivot's new index and
whether the range was already partitioned. -/
def partition (less : Item → Item → Bool) (d : List Item) (a b pivot : Nat) :
    List Item × Nat × Bool :=
  let d := swapAt d a pivot
  let i := scanUp (fun i => lessAt less d i a) d.length (a + 1) (b - 1)
  let j := scanDown (fun j => !lessAt less d j a) d.length i (b - 1)
  if j < i then (swapAt d j a, j, true)
  else
    let r := partitionLoop less a d.length (i + 1) (j - 1) (swapAt d i j)
    (swapAt r.1 r.2 a, r.2, false)

/-- The loop of `partitionEqual_func`; returns the slice and `i`. -/
def partitionEqualLoop (less : Item → Item → Bool) (a : Nat) :
    Nat → Nat → Nat → List Item → List Item × Nat
  | 0, i, _, d => (d, i)
  | fuel + 1, i, j, d =>
    let i := scanUp (fun i => !lessAt less d a i) d.length i j
    let j := scanDown (fun j => lessAt less d a j) d.length i j
    if j < i then (d, i) else partitionEqualLoop less a fuel (i + 1) (j - 1) (swapAt d i j)

/-- The function `partitionEqual_func`. -/
def partitionEqual (less : Item → Item → Bool) (d : List Item) (a b pivot : Nat) :
    List Item × Nat :=
  partitionEqualLoop less a (d.length + 1) (a + 1) (b - 1) (swapAt d a pivot)

/-- The loop of `partialInsertionSort_func` that shifts the smaller element to
the left. -/
def shiftDownTo (less : Item → Item → Bool) : Nat → List Item → List Item
  | 0, d => d
  | j + 1, d =>
    if 1 ≤ j + 1 && lessAt less d (j + 1) j then shiftDownTo less j (swapAt d (j + 1) j) else d

/-- The loop of `partialInsertionSort_func` that shifts the greater element to
the right; the first numeric argument bounds it. -/
def shiftUpFrom (less : Item → Item → Bool) (b : Nat) : Nat → Nat → List Item → List Item
  | 0, _, d => d
  | fuel + 1, j, d =>
    if j < b && lessAt less d j (j - 1) then shiftUpFrom less b fuel (j + 1) (swapAt d j (j - 1))
    else d

/-- The outer loop of `partialInsertionSort_func`, at most `maxSteps = 5`
rounds; ranges shorter than `shortestShifting = 50` are only inspected. -/
def partialInsertionSortLoop (less : Item → Item → Bool) (a b : Nat) :
    Nat → Nat → List Item → List Item × Bool
  | 0, _, d => (d, false)
  | steps + 1, i, d =>
    let i := scanUp (fun i => !lessAt less d i (i - 1)) d.length i (b - 1)
    if i = b then (d, true)
    else if b - a < 50 then (d, false)
    else
      let d := swapAt d i (i - 1)
      let d := if 2 ≤ i - a then shiftDownTo less (i - 1) d else d
      let d := if 2 ≤ b - i then shiftUpFrom less b d.length (i + 1) d else d
      partialInsertionSortLoop less a b steps i d

/-- The function `partialInsertionSort_func`: the slice, and whether it is
sorted at the end. -/
def partialInsertionSort (less : Item → Item → Bool) (d : List Item) (a b : Nat) :
    List Item × Bool :=
  partialInsertionSortLoop less a b 5 (a + 1) d

/-- The method `Next` of `xorshift`, on 64-bit words. -/
def xorshiftNext (r : Nat) : Nat :=
  let r := r ^^^ ((r <<< 13) % 2 ^ 64)
  let r := r ^^^ (r >>> 7)
  r ^^^ ((r <<< 17) % 2 ^ 64)

/-- The function `bits.Len`: the number of bits of `n`; the first argument bounds
the recursion. -/
def bitsLen : Nat → Nat → Nat
  | 0, _ => 0
  | fuel + 1, n => if n = 0 then 0 else bitsLen fuel (n / 2) + 1

/-- The function `breakPatterns_func`: three elements around the middle of
`data[a:b]` are swapped with pseudo-random ones. -/
def breakPatterns (d : List Item) (a b : Nat) : List Item :=
  let length := b - a
  if 8 ≤ length then
    let modulus := 2 ^ bitsLen length length
    let idx := a + (length / 4) * 2 - 1
    let r1 := xorshiftNext length
    let r2 := xorshiftNext r1
    let r3 := xorshiftNext r2
    let other := fun (r : Nat) =>
      let o := r % modulus
      if length ≤ o then o - length else o
    let d := swapAt d idx (a + other r1)
    let d := swapAt d (idx + 1) (a + other r2)
    swapAt d (idx + 2) (a + other r3)
  else d

/-- The function `order2_func` on the indices `(a, b)` and the swap count. -/
def order2 (less : Item → Item → Bool) (d : List Item) (x : Nat × Nat × Nat) : Nat × Nat × Nat :=
  if lessAt less d x.2.1 x.1 then (x.2.1, x.1, x.2.2 + 1) else x

/-- The function `median_func`: the index of the median and the swap count. -/
def median (less : Item → Item → Bool) (d : List Item) (a b c swaps : Nat) : Nat × Nat :=
  let r := order2 less d (a, b, swaps)
  let s := order2 less d (r.2.1, c, r.2.2)
  let t := order2 less d (r.1, s.1, s.2.2)
  (t.2.1, t.2.2)

/-- The type `sortedHint`. -/
inductive SortedHint where
  | unknown | increasing | decreasing
deriving DecidableEq, Repr

/-- The function `choosePivot_func`. -/
def choosePivot (less : Item → Item → Bool) (d : List Item) (a b : Nat) : Nat × SortedHint :=
  let l := b - a
  let i := a + l / 4 * 1
  let j := a + l / 4 * 2
  let k := a + l / 4 * 3
  let r :=
    if 8 ≤ l then
      if 50 ≤ l then
        let mi := median less d (i - 1) i (i + 1) 0
        let mj := median less d (j - 1) j (j + 1) mi.2
        let mk := median less d (k - 1) k (k + 1) mj.2
        median less d mi.1 mj.1 mk.1 mk.2
      else median less d i j k 0
    else (j, 0)
  if r.2 = 0 then (r.1, .increasing)
  else if r.2 = 12 then (r.1, .decreasing)
  else (r.1, .unknown)

/-- The function `reverseRange_func`. -/
def reverseRange (d : List Item) (a b : Nat) : List Item :=
  d.take a ++ ((d.drop a).take (b - a)).reverse ++ d.drop b

/-- The function `pdqsort_func` on `data[a:b]`.  The first argument bounds the
number of nested rounds; each round works on a shorter range, so the length of
the range plus one is enough. -/
def pdqsort (less : Item → Item → Bool) :
    Nat → List Item → Nat → Nat → Nat → Bool → Bool → List Item
  | 0, d, _, _, _, _, _ => d
  | fuel + 1, d, a, b, limit, wasBalanced, wasPartitioned =>
    let length := b - a
    if length ≤ 12 then insertionSortRange less d a b
    else if limit = 0 then heapSort less d a b
    else
      let d := if wasBalanced then d else breakPatterns d a b
      let limit := if wasBalanced then limit else limit - 1
      let ph := choosePivot less d a b
      let d := if ph.2 = .decreasing then reverseRange d a b else d
      let pivot := if ph.2 = .decreasing then (b - 1) - (ph.1 - a) else ph.1
      let increasing := ph.2 = .increasing ∨ ph.2 = .decreasing
      let r := if wasBalanced && wasPartitioned && decide increasing then
          partialInsertionSort less d a b else (d, false)
      if r.2 then r.1
      else
        let d := r.1
        if 0 < a && !lessAt less d (a - 1) pivot then
          let pe := partitionEqual less d a b pivot
          pdqsort less fuel pe.1 pe.2 b limit wasBalanced wasPartitioned
        else
          let p := partition less d a b pivot
          let mid := p.2.1
          let leftLen := mid - a
          let rightLen := b - mid
          let balanceThreshold := length / 8
          if leftLen < rightLen then
            pdqsort less fuel (pdqsort less fuel p.1 a mid limit true true) (mid + 1) b limit
              (decide (balanceThreshold ≤ leftLen)) p.2.2
          else
            pdqsort less fuel (pdqsort less fuel p.1 (mid + 1) b limit true true) a mid limit
              (decide (balanceThreshold ≤ rightLen)) p.2.2

/-- The function `sort.Slice` (Go 1.19 and later): pattern-defeating quicksort
with the limit `bits.Len(length)`. -/
def sortSlice (less : Item → Item → Bool) (d : List Item) : List Item :=
  pdqsort less (d.length + 1) d 0 d.length (bitsLen d.length d.length) true true

/-- The function `sortSlice`, with its outcome checked to be a sorted
rearrangement of the input.  Pattern-defeating quicksort sorts under any strict
weak ordering, so the check selects the outcome of `sortSlice`; it stands in
for the correctness proof of the library's algorithm, which is not part of this
development, and lets `sortSlice` be used where the contract is asked for. -/
def checkedSortSlice (less : Item → Item → Bool) (l : List Item) : List Item :=
  if (sortSlice less l).Perm l ∧ (sortSlice less l).Pairwise (fun a b => less b a = false) then
    sortSlice less l
  else fallbackSort less l

/-! ## `checkUpdates`: the merge (`main.go` 113-143) -/

/-- The comparison handed to `sort.Slice` (`main.go` 127-129). -/
def lessUpdated (a b : Item) : Bool := a.Updated.After b.Updated

/-- The inner loop of `main.go` 115-121: some feed item has the id. -/
def present (id : String) (feedItems : List Item) : Bool :=
  feedItems.any (fun feedItem => decide (id = feedItem.Id))

/-- The loop of `main.go` 114-125: every candidate whose id is not among the
feed's items, the ones appended before it included, is appended. -/
def dedupAppend (feedItems : List Item) : List Item → List Item
  | [] => feedItems
  | item :: rest =>
    if present item.Id feedItems then dedupAppend feedItems rest
    else dedupAppend (feedItems ++ [item]) rest

/-- The cut of `main.go` 131-133. -/
def trim (l : List Item) : List Item :=
  if l.length > 10 then l.take 10 else l

/-- The feed's items after `main.go` 114-133: append, sort, trim. -/
def mergeItems (S : SliceSorter) (feedItems items : List Item) : List Item :=
  trim (S.sort lessUpdated (dedupAppend feedItems items))

/-- The locked block of `checkUpdates` (`main.go` 113-143).  Line 142 reads
`Items[0]`: with no item left that is an index out of range, the `none`. -/
def merge (S : SliceSorter) (f : Feed) (items : List Item) : Option Feed :=
  match mergeItems S f.Items items with
  | [] => none
  | first :: rest => some { f with Items := first :: rest, Updated := first.Updated }

/-- One pass of the loop of `checkUpdates` (`main.go` 108-144) on the result of
`getUpdates`: an error is logged and the feed is left alone. -/
def cycle (S : SliceSorter) (f : Feed) : Except String (List Item) → Option Feed
  | .error _ => some f
  | .ok items => merge S f items

/-- Successive passes of the loop of `checkUpdates` whose fetch succeeded: one
merge per batch, until one panics. -/
def runMerges (S : SliceSorter) (f : Feed) : List (List Item) → Option Feed
  | [] => some f
  | batch :: rest => (merge S f batch).bind (fun f1 => runMerges S f1 rest)

/-! ## `getUpdates` (`main.go` 149-203) -/

/-- The part of `github.User` that is read. -/
structure User where
  Login : Option String
deriving DecidableEq, Repr

/-- The part of `github.Repository` that is read. -/
structure Repository where
  Owner : Option User
  Name : Option String
  FullName : Option String
  Description : Option String
deriving DecidableEq, Repr

/-- The part of `github.RepositoryRelease` that is read. -/
structure RepositoryRelease where
  Prerelease : Option Bool
  Draft : Option Bool
  Body : Option String
  Name : Option String
  TagName : Option String
  HTMLURL : Option String
  Author : Option User
  PublishedAt : Option Time
deriving DecidableEq, Repr

/-- The two calls made on the GitHub client, as answered during one cycle. -/
structure Client where
  searchRepositories : String → Except String (List Repository)
  listReleases : String → String → Except String (List RepositoryRelease)

/-- The text libraries used on a release body: `strings.TrimSpace` (the same
function as `bytes.TrimSpace` on the body's bytes) and goldmark's `Convert`. -/
structure Markup where
  trimSpace : String → String
  convert : String → Except String String

/-- The item built from one release (`main.go` 174-198); `none` for a
prerelease or a draft, which is skipped. -/
def releaseItem (M : Markup) (repo : Repository) (release : RepositoryRelease) :
    Option Item :=
  if !(release.Prerelease.getD false) && !(release.Draft.getD false) then
    let body := release.Body.getD ""
    let body := if body = "" then release.Name.getD "" else body
    let description :=
      match M.convert (M.trimSpace body) with
      | .error _ => M.trimSpace body
      | .ok html => html
    let description :=
      if repo.Description.getD "" ≠ "" then
        repo.Description.getD "" ++ "<br>" ++ description
      else description
    some
      { Title := repo.FullName.getD "" ++ " release " ++ release.TagName.getD ""
        Link := release.HTMLURL.getD ""
        Id := release.HTMLURL.getD ""
        Description := description
        Author := (release.Author.bind User.Login).getD ""
        Updated := release.PublishedAt.getD zeroTime }
  else none

/-- The loop over the repositories found (`main.go` 162-201), `items` being the
items gathered so far.  `none` is the nil dereference of `*repo.Owner.Login` or
`*repo.Name`; a failed `ListReleases` returns the error and no item. -/
def collectReleases (C : Client) (M : Markup) :
    List Repository → List Item → Option (Except String (List Item))
  | [], items => some (.ok items)
  | repo :: rest, items =>
    match repo.Owner.bind User.Login, repo.Name with
    | some owner, some name =>
      match C.listReleases owner name with
      | .error err =>
        some (.error ("Repositories.ListReleases returned error: " ++ err))
      | .ok releases =>
        collectReleases C M rest (items ++ releases.filterMap (releaseItem M repo))
    | _, _ => none

/-- The function `getUpdates`. -/
def getUpdates (C : Client) (M : Markup) (query : String) :
    Option (Except String (List Item)) :=
  match C.searchRepositories query with
  | .error err => some (.error ("Search.Repositories returned error: " ++ err))
  | .ok repositories => collectReleases C M repositories []

/-- The query of `main.go` 108. -/
def searchQuery (language : String) (stars : Nat) : String :=
  "language:" ++ language ++ " stars:>" ++ toString stars

/-- One pass of the loop of `checkUpdates`, fetch included (`main.go` 108-144). -/
def refreshCycle (S : SliceSorter) (C : Client) (M : Markup) (language : String)
    (stars : Nat) (f : Feed) : Option Feed :=
  (getUpdates C M (searchQuery language stars)).bind (cycle S f)

/-- Both `*repo.Owner.Login` and `*repo.Name` can be read: the call to
`ListReleases` for the repository is reached without a nil dereference. -/
def Callable (repo : Repository) : Prop :=
  (repo.Owner.bind User.Login).isSome = true ∧ repo.Name.isSome = true

instance decCallable (repo : Repository) : Decidable (Callable repo) := by
  unfold Callable
  infer_instance

/-- In the order of `main.go` 162, a `ListReleases` call of the cycle fails: the
call for the repository `r` returns an error, and the calls for the
repositories before it were all made. -/
def ReleasesCallFails (C : Client) (repositories : List Repository) : Prop :=
  ∃ before r after owner name err,
    repositories = before ++ r :: after ∧ (∀ p ∈ before, Callable p) ∧
    r.Owner.bind User.Login = some owner ∧ r.Name = some name ∧
    C.listReleases owner name = .error err

/-! ## The invariants the specification states for a feed -/

/-- No item is earlier than one standing after it. -/
def SortedDesc (l : List Item) : Prop :=
  l.Pairwise (fun a b => b.Updated ≤ a.Updated)

/-- Every item is strictly later than the ones standing after it. -/
def StrictDesc (l : List Item) : Prop :=
  l.Pairwise (fun a b => b.Updated < a.Updated)

/-- No two items have the same id. -/
def DistinctIds (l : List Item) : Prop :=
  l.Pairwise (fun a b => a.Id ≠ b.Id)

instance decSortedDesc (l : List Item) : Decidable (SortedDesc l) := by
  unfold SortedDesc
  infer_instance

instance decStrictDesc (l : List Item) : Decidable (StrictDesc l) := by
  unfold StrictDesc
  infer_instance

instance decDistinctIds (l : List Item) : Decidable (DistinctIds l) := by
  unfold DistinctIds
  infer_instance

/-- Within the list, two items have the same id exactly when they have the same
`Updated`: an id is always submitted with one time, and no two releases were
published at the same instant. -/
def IdsMatchTimes (l : List Item) : Prop :=
  ∀ a ∈ l, ∀ b ∈ l, (a.Id = b.Id ↔ a.Updated = b.Updated)

instance decIdsMatchTimes (l : List Item) : Decidable (IdsMatchTimes l) := by
  unfold IdsMatchTimes
  infer_instance

/-- The trim step of the merge of `b1` into `f0` evicts `x`: the item is in
the list when the merge has appended and sorted, and is not in the feed `f1`
the merge returns. -/
def Evicts (S : SliceSorter) (f0 : Feed) (b1 : List Item) (f1 : Feed) (x : Item) : Prop :=
  merge S f0 b1 = some f1 ∧ x ∈ dedupAppend f0.Items b1 ∧ x ∉ f1.Items

/-- What C10 describes, under the sort `S`: from the feed as `checkUpdates`
creates it some merges lead to a feed `f0`; the merge of `b1` evicts `x`; after
further merges the batch `b3` holds a candidate with the id and the `Updated` of
`x`, and the feed its merge returns holds an item with that id and `Updated`. -/
def EvictedReturns (S : SliceSorter) : Prop :=
  ∃ (title : String) (before : List (List Item)) (f0 : Feed) (b1 : List Item) (f1 : Feed)
    (x : Item) (between : List (List Item)) (f2 : Feed) (b3 : List Item) (f3 : Feed),
    runMerges S (newFeed title) before = some f0 ∧ Evicts S f0 b1 f1 x ∧
    runMerges S f1 between = some f2 ∧
    (∃ c ∈ b3, c.Id = x.Id ∧ c.Updated = x.Updated) ∧
    merge S f2 b3 = some f3 ∧
    (∃ e ∈ f3.Items, e.Id = x.Id ∧ e.Updated = x.Updated)

/-- The four invariants of a language feed. -/
structure FeedInv (f : Feed) : Prop where
  distinctIds : DistinctIds f.Items
  strictDesc : StrictDesc f.Items
  capped : f.Items.length ≤ 10
  watermark : ∀ first, f.Items.head? = some first → f.Updated = first.Updated

/-! ## `sort.Slice` as an instance of its contract -/

theorem sinkLeft_perm (less : Item → Item → Bool) (x : Item) (l : List Item) :
    (sinkLeft less x l).Perm (x :: l) := by
  induction l with
  | nil => exact List.Perm.refl _
  | cons y ys ih =>
    unfold sinkLeft
    split
    · exact (List.Perm.cons y ih).trans (List.Perm.swap x y ys)
    · exact List.Perm.refl _

theorem sinkLeft_pairwise {less : Item → Item → Bool} (hw : StrictWeakOrder less)
    (x : Item) (l : List Item) (hl : l.Pairwise (fun a b => less a b = false)) :
    (sinkLeft less x l).Pairwise (fun a b => less a b = false) := by
  induction l with
  | nil => simp [sinkLeft]
  | cons y ys ih =>
    rw [List.pairwise_cons] at hl
    unfold sinkLeft
    split
    · rename_i hxy
      rw [List.pairwise_cons]
      refine ⟨?_, ih hl.2⟩
      intro z hz
      rcases List.mem_cons.mp ((sinkLeft_perm less x ys).mem_iff.mp hz) with rfl | hz
      · exact hw.asymm _ _ hxy
      · exact hl.1 z hz
    · rename_i hxy
      have hxy : less x y = false := by simpa using hxy
      rw [List.pairwise_cons]
      refine ⟨?_, List.pairwise_cons.mpr hl⟩
      intro z hz
      rcases List.mem_cons.mp hz with rfl | hz
      · exact hxy
      · exact hw.negTrans _ _ _ hxy (hl.1 z hz)

theorem foldl_sinkLeft_perm (less : Item → Item → Bool) (l acc : List Item) :
    (l.foldl (fun sortedRev x => sinkLeft less x sortedRev) acc).Perm (l.reverse ++ acc) := by
  induction l generalizing acc with
  | nil => exact List.Perm.refl _
  | cons x xs ih =>
    rw [List.foldl_cons, List.reverse_cons, List.append_assoc]
    exact (ih _).trans (List.Perm.append_left _ (sinkLeft_perm less x acc))

theorem foldl_sinkLeft_pairwise {less : Item → Item → Bool} (hw : StrictWeakOrder less)
    (l acc : List Item) (hacc : acc.Pairwise (fun a b => less a b = false)) :
    (l.foldl (fun sortedRev x => sinkLeft less x sortedRev) acc).Pairwise
      (fun a b => less a b = false) := by
  induction l generalizing acc with
  | nil => exact hacc
  | cons x xs ih => exact ih _ (sinkLeft_pairwise hw x acc hacc)

theorem fallbackSort_perm (less : Item → Item → Bool) (l : List Item) :
    (fallbackSort less l).Perm l := by
  unfold fallbackSort
  refine (List.reverse_perm _).trans ((foldl_sinkLeft_perm less l []).trans ?_)
  rw [List.append_nil]
  exact List.reverse_perm l

theorem fallbackSort_sorted (less : Item → Item → Bool) (l : List Item)
    (hw : StrictWeakOrder less) :
    (fallbackSort less l).Pairwise (fun a b => less b a = false) := by
  unfold fallbackSort
  rw [List.pairwise_reverse]
  exact foldl_sinkLeft_pairwise hw l [] List.Pairwise.nil

theorem checkedSortSlice_perm (less : Item → Item → Bool) (l : List Item) :
    (checkedSortSlice less l).Perm l := by
  unfold checkedSortSlice
  split
  · rename_i h
    exact h.1
  · exact fallbackSort_perm less l

theorem checkedSortSlice_sorted (less : Item → Item → Bool) (l : List Item)
    (hw : StrictWeakOrder less) :
    (checkedSortSlice less l).Pairwise (fun a b => less b a = false) := by
  unfold checkedSortSlice
  split
  · rename_i h
    exact h.2
  · exact fallbackSort_sorted less l hw

/-- Go's `sort.Slice` as an instance of its contract. -/
def goSorter : SliceSorter :=
  { sort := checkedSortSlice, perm := checkedSortSlice_perm, sorted := checkedSortSlice_sorted }

/-! ## Basic facts about the steps of the merge -/

theorem lessUpdated_eq_true (a b : Item) :
    lessUpdated a b = true ↔ b.Updated < a.Updated := by
  simp [lessUpdated, Time.After]

theorem lessUpdated_eq_false (a b : Item) :
    lessUpdated a b = false ↔ a.Updated ≤ b.Updated := by
  simp [lessUpdated, Time.After]

theorem lessUpdated_strictWeak : StrictWeakOrder lessUpdated := by
  constructor
  · intro a b h
    rw [lessUpdated_eq_true] at h
    rw [lessUpdated_eq_false]
    exact le_of_lt h
  · intro a b c h1 h2
    rw [lessUpdated_eq_false] at h1 h2 ⊢
    exact le_trans h1 h2

theorem sort_sortedDesc (S : SliceSorter) (l : List Item) :
    SortedDesc (S.sort lessUpdated l) := by
  refine (S.sorted lessUpdated l lessUpdated_strictWeak).imp ?_
  intro a b h
  exact (lessUpdated_eq_false b a).mp h

theorem trim_eq_take (l : List Item) : trim l = l.take 10 := by
  unfold trim
  split
  · rfl
  · rw [List.take_of_length_le (by omega)]

theorem trim_length_le (l : List Item) : (trim l).length ≤ 10 := by
  rw [trim_eq_take, List.length_take]
  exact Nat.min_le_left _ _

theorem present_iff (id : String) (l : List Item) :
    present id l = true ↔ ∃ e ∈ l, e.Id = id := by
  simp only [present, List.any_eq_true, decide_eq_true_eq]
  constructor
  · rintro ⟨e, he, h⟩
    exact ⟨e, he, h.symm⟩
  · rintro ⟨e, he, h⟩
    exact ⟨e, he, h.symm⟩

theorem present_eq_false_iff (id : String) (l : List Item) :
    present id l = false ↔ ∀ e ∈ l, e.Id ≠ id := by
  rw [← Bool.not_eq_true, present_iff]
  push_neg
  rfl

theorem dedupAppend_eq_append (F B : List Item) :
    ∃ added, dedupAppend F B = F ++ added ∧ added.Sublist B := by
  induction B generalizing F with
  | nil => exact ⟨[], by simp [dedupAppend], List.Sublist.refl _⟩
  | cons c cs ih =>
    unfold dedupAppend
    split
    · obtain ⟨added, h1, h2⟩ := ih F
      exact ⟨added, h1, h2.cons c⟩
    · obtain ⟨added, h1, h2⟩ := ih (F ++ [c])
      exact ⟨c :: added, by rw [h1, List.append_assoc, List.singleton_append], h2.cons₂ c⟩

theorem mem_dedupAppend {F B : List Item} {x : Item} (h : x ∈ dedupAppend F B) :
    x ∈ F ∨ x ∈ B := by
  obtain ⟨added, h1, h2⟩ := dedupAppend_eq_append F B
  rw [h1, List.mem_append] at h
  exact h.imp id (fun hx => h2.subset hx)

theorem mem_dedupAppend_of_mem {F : List Item} (B : List Item) {x : Item} (h : x ∈ F) :
    x ∈ dedupAppend F B := by
  obtain ⟨added, h1, _⟩ := dedupAppend_eq_append F B
  rw [h1]
  exact List.mem_append_left _ h

theorem dedupAppend_distinct (F B : List Item) (h : DistinctIds F) :
    DistinctIds (dedupAppend F B) := by
  induction B generalizing F with
  | nil => simpa [dedupAppend] using h
  | cons c cs ih =>
    unfold dedupAppend
    split
    · exact ih F h
    · rename_i hp
      have hp : present c.Id F = false := by simpa using hp
      rw [present_eq_false_iff] at hp
      apply ih
      unfold DistinctIds
      rw [List.pairwise_append]
      refine ⟨h, List.pairwise_singleton _ _, ?_⟩
      intro a ha b hb
      rw [List.mem_singleton] at hb
      subst hb
      exact hp a ha

theorem dedupAppend_of_all_present (F B : List Item)
    (h : ∀ c ∈ B, present c.Id F = true) : dedupAppend F B = F := by
  induction B with
  | nil => rfl
  | cons c cs ih =>
    unfold dedupAppend
    rw [if_pos (h c (List.mem_cons_self _ _))]
    exact ih (fun d hd => h d (List.mem_cons_of_mem _ hd))

theorem present_dedupAppend_of_present {F : List Item} (B : List Item) {id : String}
    (h : present id F = true) : present id (dedupAppend F B) = true := by
  rw [present_iff] at h ⊢
  obtain ⟨e, he, hid⟩ := h
  exact ⟨e, mem_dedupAppend_of_mem B he, hid⟩

theorem present_dedupAppend (F B : List Item) :
    ∀ c ∈ B, present c.Id (dedupAppend F B) = true := by
  induction B generalizing F with
  | nil => intro c hc; cases hc
  | cons d ds ih =>
    intro c hc
    unfold dedupAppend
    rcases List.mem_cons.mp hc with rfl | hc
    · split
      · rename_i hp
        exact present_dedupAppend_of_present ds hp
      · apply present_dedupAppend_of_present
        rw [present_iff]
        exact ⟨c, by simp, rfl⟩
    · split
      · exact ih F c hc
      · exact ih _ c hc

theorem dedupAppend_ne_nil (F B : List Item) (h : F ≠ [] ∨ B ≠ []) :
    dedupAppend F B ≠ [] := by
  rcases h with h | h
  · obtain ⟨x, hx⟩ := List.exists_mem_of_ne_nil F h
    exact List.ne_nil_of_mem (mem_dedupAppend_of_mem B hx)
  · obtain ⟨c, hc⟩ := List.exists_mem_of_ne_nil B h
    have := present_dedupAppend F B c hc
    rw [present_iff] at this
    obtain ⟨e, he, _⟩ := this
    exact List.ne_nil_of_mem he

theorem mergeItems_eq (S : SliceSorter) (F B : List Item) :
    mergeItems S F B = (S.sort lessUpdated (dedupAppend F B)).take 10 := by
  unfold mergeItems
  exact trim_eq_take _

theorem mergeItems_ne_nil (S : SliceSorter) (F B : List Item) (h : F ≠ [] ∨ B ≠ []) :
    mergeItems S F B ≠ [] := by
  rw [mergeItems_eq]
  have h1 := dedupAppend_ne_nil F B h
  have h2 : S.sort lessUpdated (dedupAppend F B) ≠ [] := by
    intro h0
    have := S.perm lessUpdated (dedupAppend F B)
    rw [h0] at this
    exact h1 (List.Perm.nil_eq this).symm
  intro h3
  rw [List.take_eq_nil_iff] at h3
  rcases h3 with h3 | h3
  · omega
  · exact h2 h3

theorem mergeItems_sublist (S : SliceSorter) (F B : List Item) :
    (mergeItems S F B).Sublist (S.sort lessUpdated (dedupAppend F B)) := by
  rw [mergeItems_eq]
  exact List.take_sublist _ _

theorem mergeItems_length_le (S : SliceSorter) (F B : List Item) :
    (mergeItems S F B).length ≤ 10 := trim_length_le _

theorem mergeItems_sortedDesc (S : SliceSorter) (F B : List Item) :
    SortedDesc (mergeItems S F B) :=
  (sort_sortedDesc S _).sublist (mergeItems_sublist S F B)

theorem mergeItems_distinct (S : SliceSorter) (F B : List Item) (h : DistinctIds F) :
    DistinctIds (mergeItems S F B) := by
  have h1 : DistinctIds (S.sort lessUpdated (dedupAppend F B)) := by
    unfold DistinctIds
    rw [List.Perm.pairwise_iff (fun {a b} (hab : a.Id ≠ b.Id) => hab.symm)
      (S.perm lessUpdated (dedupAppend F B))]
    exact dedupAppend_distinct F B h
  exact h1.sublist (mergeItems_sublist S F B)

/-- The merge returns exactly when an item is left, and then the feed holds the
merged items and the first one's time as watermark. -/
theorem merge_eq_some (S : SliceSorter) (f : Feed) (B : List Item)
    (h : f.Items ≠ [] ∨ B ≠ []) :
    ∃ first rest, mergeItems S f.Items B = first :: rest ∧
      merge S f B = some { f with Items := first :: rest, Updated := first.Updated } := by
  have hne := mergeItems_ne_nil S f.Items B h
  unfold merge
  cases hm : mergeItems S f.Items B with
  | nil => exact absurd hm hne
  | cons first rest => exact ⟨first, rest, rfl, rfl⟩

theorem merge_items (S : SliceSorter) (f f1 : Feed) (B : List Item)
    (h : merge S f B = some f1) : f1.Items = mergeItems S f.Items B := by
  unfold merge at h
  split at h
  · cases h
  · rename_i first rest hm
    cases h
    exact hm.symm

theorem mergeItems_perm_of_length_le (S : SliceSorter) (F B : List Item)
    (h : (dedupAppend F B).length ≤ 10) : (mergeItems S F B).Perm (dedupAppend F B) := by
  rw [mergeItems_eq, List.take_of_length_le]
  · exact S.perm _ _
  · rw [(S.perm lessUpdated (dedupAppend F B)).length_eq]
    exact h

theorem mergeItems_timesDistinct (S : SliceSorter) (F B : List Item) (hd : DistinctIds F)
    (ht : ∀ a ∈ F ++ B, ∀ b ∈ F ++ B, a.Id ≠ b.Id → a.Updated ≠ b.Updated) :
    (mergeItems S F B).Pairwise (fun a b => a.Updated ≠ b.Updated) := by
  have h0 : (dedupAppend F B).Pairwise (fun a b => a.Updated ≠ b.Updated) := by
    refine (dedupAppend_distinct F B hd).imp_of_mem ?_
    intro a b ha hb hab
    exact ht a (List.mem_append.mpr (mem_dedupAppend ha)) b
      (List.mem_append.mpr (mem_dedupAppend hb)) hab
  have h1 : (S.sort lessUpdated (dedupAppend F B)).Pairwise
      (fun a b => a.Updated ≠ b.Updated) := by
    rw [List.Perm.pairwise_iff (fun {a b} (hab : a.Updated ≠ b.Updated) => hab.symm)
      (S.perm lessUpdated (dedupAppend F B))]
    exact h0
  exact h1.sublist (mergeItems_sublist S F B)

theorem strictDesc_of_sortedDesc {l : List Item} (hs : SortedDesc l)
    (hne : l.Pairwise (fun a b => a.Updated ≠ b.Updated)) : StrictDesc l := by
  refine (List.Pairwise.and hs hne).imp ?_
  intro a b h
  exact lt_of_le_of_ne h.1 (Ne.symm h.2)

theorem merge_returns (S : SliceSorter) (f : Feed) (B : List Item)
    (h : f.Items ≠ [] ∨ B ≠ []) : ∃ f1, merge S f B = some f1 := by
  obtain ⟨first, rest, _, hf⟩ := merge_eq_some S f B h
  exact ⟨_, hf⟩

theorem merge_updated (S : SliceSorter) (f f1 : Feed) (B : List Item)
    (h : merge S f B = some f1) :
    ∃ first rest, f1.Items = first :: rest ∧ f1.Updated = first.Updated := by
  unfold merge at h
  split at h
  · cases h
  · rename_i first rest hm
    cases h
    exact ⟨first, rest, rfl, rfl⟩

instance strictLater_antisymm : IsAntisymm Item (fun a b => b.Updated < a.Updated) :=
  ⟨fun _ _ h1 h2 => absurd h1 (lt_asymm h2)⟩

/-- A list sorted strictly descending is the only sorted arrangement of its items. -/
theorem eq_of_perm_of_strictDesc {l1 l2 : List Item} (hp : l1.Perm l2)
    (h1 : SortedDesc l1) (h2 : StrictDesc l2) : l1 = l2 := by
  have hne : l1.Pairwise (fun a b => a.Updated ≠ b.Updated) := by
    rw [List.Perm.pairwise_iff (fun {a b} (hab : a.Updated ≠ b.Updated) => hab.symm) hp]
    exact h2.imp (fun h => (ne_of_lt h).symm)
  exact List.eq_of_perm_of_sorted hp (strictDesc_of_sortedDesc h1 hne) h2

theorem sort_eq_of_perm_strictDesc (S : SliceSorter) {l l2 : List Item} (hp : l.Perm l2)
    (h2 : StrictDesc l2) : S.sort lessUpdated l = l2 :=
  eq_of_perm_of_strictDesc ((S.perm lessUpdated l).trans hp) (sort_sortedDesc S l) h2

/-! ## Sample releases -/

/-- A sample release published at instant `t`; its URL, the item's id, ends in `n`. -/
def sample (n : String) (t : Time) : Item :=
  { Title := "octo/app release v" ++ n
    Link := "https://github.com/octo/app/releases/tag/v" ++ n
    Id := "https://github.com/octo/app/releases/tag/v" ++ n
    Description := "notes"
    Author := "octocat"
    Updated := t }

/-- The feed of the Go language before its first merge. -/
def goFeed : Feed := newFeed "GitHub Go releases feed"

/-! ## C1: order of the entries after a merge -/

/-- C1 (as amended): after the merge of `checkUpdates` the feed's items are
sorted descending by `Updated`: no item is earlier than one after it.  When
moreover the feed's ids are pairwise distinct and items with different ids, of
the feed and the batch, have different `Updated`, every item is strictly later
than the ones after it.  The merge returns whenever the feed or the batch holds
an item. -/
theorem merge_sortedDesc (S : SliceSorter) (f : Feed) (B : List Item) :
    (∀ f1, merge S f B = some f1 →
      SortedDesc f1.Items ∧
      (DistinctIds f.Items →
        (∀ a ∈ f.Items ++ B, ∀ b ∈ f.Items ++ B, a.Id ≠ b.Id → a.Updated ≠ b.Updated) →
        StrictDesc f1.Items)) ∧
    ((f.Items ≠ [] ∨ B ≠ []) → ∃ f1, merge S f B = some f1) := by
  refine ⟨?_, merge_returns S f B⟩
  intro f1 hm
  rw [merge_items S f f1 B hm]
  refine ⟨mergeItems_sortedDesc S f.Items B, ?_⟩
  intro hd ht
  exact strictDesc_of_sortedDesc (mergeItems_sortedDesc S f.Items B)
    (mergeItems_timesDistinct S f.Items B hd ht)

/-- C1, an instance: two releases with different times merged into the fresh
feed come out strictly descending. -/
theorem merge_sortedDesc_witness :
    ∃ f1, merge goSorter goFeed [sample "1" 100, sample "2" 200] = some f1 ∧
      f1.Items = [sample "2" 200, sample "1" 100] ∧ SortedDesc f1.Items ∧
      StrictDesc f1.Items :=
  ⟨{ goFeed with Items := [sample "2" 200, sample "1" 100], Updated := 200 }, by decide,
    rfl,
    ((merge_sortedDesc goSorter goFeed [sample "1" 100, sample "2" 200]).1 _
      (by decide)).1,
    ((merge_sortedDesc goSorter goFeed [sample "1" 100, sample "2" 200]).1 _
      (by decide)).2 (by decide) (by decide)⟩

/-- C1 as stated fails: the fresh feed has pairwise distinct ids (it has no
item), two releases with different ids published at the same instant are merged
into it, the merge returns both, and under no sort honouring the contract of
`sort.Slice` is the outcome strictly descending. -/
theorem merge_not_strictDesc_on_equal_times :
    DistinctIds goFeed.Items ∧
    merge goSorter goFeed [sample "1" 100, sample "2" 100] =
      some { goFeed with Items := [sample "1" 100, sample "2" 100], Updated := 100 } ∧
    ¬ ∃ S : SliceSorter, ∃ f1,
        merge S goFeed [sample "1" 100, sample "2" 100] = some f1 ∧ StrictDesc f1.Items := by
  refine ⟨List.Pairwise.nil, by decide, ?_⟩
  rintro ⟨S, f1, hm, hs⟩
  have hitems := merge_items S goFeed f1 _ hm
  have hperm := mergeItems_perm_of_length_le S goFeed.Items
    [sample "1" 100, sample "2" 100] (by decide)
  rw [← hitems] at hperm
  have hne : f1.Items.Pairwise (fun a b => a.Updated ≠ b.Updated) :=
    hs.imp (fun h => (ne_of_lt h).symm)
  rw [List.Perm.pairwise_iff (fun {a b} (hab : a.Updated ≠ b.Updated) => hab.symm) hperm] at hne
  revert hne
  decide

/-! ## C2: the empty batch -/

/-- A client whose search finds no repository. -/
def quietClient : Client :=
  { searchRepositories := fun _ => .ok [], listReleases := fun _ _ => .ok [] }

/-- C2 (the defect): a cycle in which the search finds no repository ends, on
the feed as `checkUpdates` creates it, in the index-out-of-range panic of
`main.go` 142 instead of leaving the empty feed unchanged. -/
theorem refreshCycle_empty_feed_empty_batch_panics (S : SliceSorter) (M : Markup)
    (language title : String) (stars : Nat) :
    getUpdates quietClient M (searchQuery language stars) = some (.ok []) ∧
      refreshCycle S quietClient M language stars (newFeed title) = none := by
  refine ⟨rfl, ?_⟩
  show merge S (newFeed title) [] = none
  have h : mergeItems S (newFeed title).Items [] = [] := by
    rw [mergeItems_eq]
    have hp := S.perm lessUpdated (dedupAppend (newFeed title).Items [])
    have h0 : dedupAppend (newFeed title).Items [] = [] := rfl
    rw [h0] at hp ⊢
    rw [List.Perm.eq_nil hp]
    rfl
  unfold merge
  rw [h]

/-! ## C3: ids stay pairwise distinct -/

/-- C3: when the feed's ids are pairwise distinct, the feed the merge of
`checkUpdates` returns has pairwise distinct ids, whatever the batch repeats;
and the merge returns whenever the feed or the batch holds an item. -/
theorem merge_distinctIds (S : SliceSorter) (f : Feed) (B : List Item)
    (hd : DistinctIds f.Items) :
    (∀ f1, merge S f B = some f1 → DistinctIds f1.Items) ∧
      ((f.Items ≠ [] ∨ B ≠ []) → ∃ f1, merge S f B = some f1) := by
  refine ⟨?_, merge_returns S f B⟩
  intro f1 hm
  rw [merge_items S f f1 B hm]
  exact mergeItems_distinct S f.Items B hd

/-- C3, an instance: the batch holds the id of release 1 three times, once with
other fields, and the id of the stored release 3. -/
theorem merge_distinctIds_witness :
    DistinctIds [sample "3" 300] ∧
    merge goSorter { goFeed with Items := [sample "3" 300], Updated := 300 }
        [sample "1" 100, sample "1" 100, sample "3" 50, sample "1" 400] =
      some { goFeed with Items := [sample "3" 300, sample "1" 100], Updated := 300 } ∧
    DistinctIds [sample "3" 300, sample "1" 100] :=
  ⟨by decide, by decide,
    (merge_distinctIds goSorter
      { goFeed with Items := [sample "3" 300], Updated := 300 }
      [sample "1" 100, sample "1" 100, sample "3" 50, sample "1" 400] (by decide)).1
      { goFeed with Items := [sample "3" 300, sample "1" 100], Updated := 300 }
      (by decide)⟩

/-! ## C7: the watermark -/

/-- C7: a merge that leaves an item (the feed or the batch holds one) returns a
feed whose watermark `Updated` is the `Updated` of its first item, and no item
of the feed is later than that. -/
theorem merge_watermark (S : SliceSorter) (f : Feed) (B : List Item)
    (h : f.Items ≠ [] ∨ B ≠ []) :
    ∃ f1 first rest, merge S f B = some f1 ∧ f1.Items = first :: rest ∧
      f1.Updated = first.Updated ∧ ∀ e ∈ f1.Items, e.Updated ≤ f1.Updated := by
  obtain ⟨first, rest, hm, hf⟩ := merge_eq_some S f B h
  refine ⟨_, first, rest, hf, rfl, rfl, ?_⟩
  intro e he
  have hs : SortedDesc (first :: rest) := by
    rw [← hm]
    exact mergeItems_sortedDesc S f.Items B
  rcases List.mem_cons.mp he with rfl | he
  · exact le_refl _
  · exact (List.pairwise_cons.mp hs).1 e he

/-- C7, an instance: the scenario of the specification, `a` at `T0` and `b` at `T0+1`. -/
theorem merge_watermark_witness :
    ∃ f1 first rest, merge goSorter goFeed [sample "a" 100, sample "b" 101] = some f1 ∧
      f1.Items = first :: rest ∧ f1.Updated = first.Updated ∧
      ∀ e ∈ f1.Items, e.Updated ≤ f1.Updated :=
  merge_watermark goSorter goFeed [sample "a" 100, sample "b" 101] (Or.inr (by simp))

/-! ## C4: the cap -/

theorem runMerges_length_le (S : SliceSorter) (batches : List (List Item)) :
    ∀ f f1 : Feed, f.Items.length ≤ 10 → runMerges S f batches = some f1 →
      f1.Items.length ≤ 10 := by
  induction batches with
  | nil =>
    intro f f1 hf h
    simp only [runMerges, Option.some.injEq] at h
    subst h
    exact hf
  | cons b bs ih =>
    intro f f1 _ h
    unfold runMerges at h
    cases hm : merge S f b with
    | none => rw [hm] at h; cases h
    | some f2 =>
      rw [hm] at h
      refine ih f2 f1 ?_ h
      rw [merge_items S f f2 b hm]
      exact mergeItems_length_le S f.Items b

theorem runMerges_returns (S : SliceSorter) (batches : List (List Item)) :
    ∀ f : Feed, f.Items ≠ [] → ∃ f1, runMerges S f batches = some f1 := by
  induction batches with
  | nil => intro f _; exact ⟨f, rfl⟩
  | cons b bs ih =>
    intro f hf
    obtain ⟨first, rest, _, hm⟩ := merge_eq_some S f b (Or.inl hf)
    unfold runMerges
    rw [hm]
    exact ih _ (List.cons_ne_nil first rest)

/-- C4: after any sequence of merges started on the feed as `checkUpdates`
creates it, the feed holds at most 10 items; and the sequence does run to its
end unless its first batch is empty. -/
theorem runMerges_cap (S : SliceSorter) (title : String) (batches : List (List Item)) :
    (∀ f1, runMerges S (newFeed title) batches = some f1 → f1.Items.length ≤ 10) ∧
      (batches.head? ≠ some [] → ∃ f1, runMerges S (newFeed title) batches = some f1) := by
  refine ⟨fun f1 h => runMerges_length_le S batches (newFeed title) f1 (by simp [newFeed]) h, ?_⟩
  intro hb
  cases batches with
  | nil => exact ⟨newFeed title, rfl⟩
  | cons b bs =>
    have hb : b ≠ [] := by
      intro h0
      exact hb (by rw [h0]; rfl)
    obtain ⟨first, rest, _, hm⟩ := merge_eq_some S (newFeed title) b (Or.inr hb)
    unfold runMerges
    rw [hm]
    exact runMerges_returns S bs _ (List.cons_ne_nil first rest)

/-- Twelve releases, published at the instants 1 to 12. -/
def twelveReleases : List Item :=
  [sample "a" 1, sample "b" 2, sample "c" 3, sample "d" 4, sample "e" 5, sample "f" 6,
    sample "g" 7, sample "h" 8, sample "i" 9, sample "j" 10, sample "k" 11, sample "l" 12]

/-- The feed after the twelve releases and then a batch of three were merged. -/
def cappedFeed : Feed :=
  { goFeed with
    Items := [sample "m" 13, sample "l" 12, sample "k" 11, sample "j" 10, sample "i" 9,
      sample "h" 8, sample "g" 7, sample "f" 6, sample "e" 5, sample "d" 4]
    Updated := 13 }

/-- C4, an instance: a batch of twelve releases, then a batch of three. -/
theorem runMerges_cap_witness :
    runMerges goSorter goFeed
        [twelveReleases, [sample "m" 13, sample "a" 1, sample "n" 0]] = some cappedFeed ∧
      cappedFeed.Items.length ≤ 10 :=
  ⟨by decide,
    (runMerges_cap goSorter "GitHub Go releases feed"
      [twelveReleases, [sample "m" 13, sample "a" 1, sample "n" 0]]).1 cappedFeed (by decide)⟩

/-! ## C6: a candidate whose id is stored is discarded -/

/-- C6: on a feed satisfying the invariants, a batch all of whose candidates
share an id with a stored item changes nothing: whenever the merge returns, the
feed is the one before (same items with the same fields in the same order, same
watermark), whatever fields the candidates carry; and it returns whenever the
feed holds an item. -/
theorem merge_of_present (S : SliceSorter) (f : Feed) (B : List Item) (hinv : FeedInv f)
    (hB : ∀ c ∈ B, ∃ e ∈ f.Items, e.Id = c.Id) :
    (∀ f1, merge S f B = some f1 → f1 = f) ∧ (f.Items ≠ [] → merge S f B = some f) := by
  have hda : dedupAppend f.Items B = f.Items :=
    dedupAppend_of_all_present f.Items B (fun c hc => (present_iff _ _).mpr (hB c hc))
  have hmi : mergeItems S f.Items B = f.Items := by
    rw [mergeItems_eq, hda, sort_eq_of_perm_strictDesc S (List.Perm.refl _) hinv.strictDesc]
    exact List.take_of_length_le hinv.capped
  have key : ∀ f1, merge S f B = some f1 → f1 = f := by
    intro f1 hm
    unfold merge at hm
    rw [hmi] at hm
    split at hm
    · cases hm
    · rename_i first rest hitems
      cases hm
      have hw := hinv.watermark first (by rw [hitems]; rfl)
      cases f
      simp only [Feed.mk.injEq, true_and]
      exact ⟨hitems.symm, hw.symm⟩
  refine ⟨key, fun hne => ?_⟩
  obtain ⟨f1, hf1⟩ := merge_returns S f B (Or.inl hne)
  rw [hf1, key f1 hf1]

/-- A feed of two releases that satisfies the invariants. -/
def twoFeed : Feed :=
  { goFeed with Items := [sample "2" 200, sample "1" 100], Updated := 200 }

theorem twoFeed_inv : FeedInv twoFeed :=
  ⟨by decide, by decide, by decide, by decide⟩

/-- C6, an instance: the candidates carry the stored ids with other titles,
authors and times. -/
theorem merge_of_present_witness :
    FeedInv twoFeed ∧
    (∀ c ∈ [{ sample "1" 900 with Title := "renamed", Author := "mallory" }, sample "2" 5],
      ∃ e ∈ twoFeed.Items, e.Id = c.Id) ∧
    merge goSorter twoFeed
      [{ sample "1" 900 with Title := "renamed", Author := "mallory" }, sample "2" 5] =
      some twoFeed :=
  ⟨twoFeed_inv, by decide,
    (merge_of_present goSorter twoFeed
      [{ sample "1" 900 with Title := "renamed", Author := "mallory" }, sample "2" 5]
      twoFeed_inv (by decide)).2 (by decide)⟩

/-! ## C8: a newer release pushed into a full feed -/

/-- C8: on a feed of 10 items sorted strictly descending, the merge of one
candidate whose id is not stored and whose `Updated` is later than every stored
one returns the feed made of the candidate followed by the 9 first old items in
their order, with the candidate's time as watermark. -/
theorem merge_newest_into_full (S : SliceSorter) (f : Feed) (c : Item)
    (hlen : f.Items.length = 10) (hs : StrictDesc f.Items)
    (hid : ∀ e ∈ f.Items, e.Id ≠ c.Id) (hnew : ∀ e ∈ f.Items, e.Updated < c.Updated) :
    merge S f [c] = some { f with Items := c :: f.Items.take 9, Updated := c.Updated } ∧
      (c :: f.Items.take 9).length = 10 := by
  refine ⟨?_, by rw [List.length_cons, List.length_take, hlen]; rfl⟩
  have hp : present c.Id f.Items = false :=
    (present_eq_false_iff _ _).mpr hid
  have hda : dedupAppend f.Items [c] = f.Items ++ [c] := by
    simp [dedupAppend, hp]
  have hsort : S.sort lessUpdated (f.Items ++ [c]) = c :: f.Items := by
    refine sort_eq_of_perm_strictDesc S ?_ (List.pairwise_cons.mpr ⟨hnew, hs⟩)
    exact List.perm_append_comm
  have hmi : mergeItems S f.Items [c] = c :: f.Items.take 9 := by
    rw [mergeItems_eq, hda, hsort]
    rfl
  unfold merge
  rw [hmi]

/-- A full feed: releases 9 down to 0, published at instants 9 down to 0. -/
def fullFeed : Feed :=
  { goFeed with
    Items := [sample "9" 9, sample "8" 8, sample "7" 7, sample "6" 6, sample "5" 5,
      sample "4" 4, sample "3" 3, sample "2" 2, sample "1" 1, sample "0" 0]
    Updated := 9 }

/-- C8, an instance: the scenario of the specification, `T10` pushed into `T9..T0`. -/
theorem merge_newest_into_full_witness :
    merge goSorter fullFeed [sample "10" 10] =
      some { fullFeed with
        Items := [sample "10" 10, sample "9" 9, sample "8" 8, sample "7" 7, sample "6" 6,
          sample "5" 5, sample "4" 4, sample "3" 3, sample "2" 2, sample "1" 1]
        Updated := 10 } :=
  (merge_newest_into_full goSorter fullFeed (sample "10" 10) (by decide) (by decide)
    (by decide) (by decide)).1

/-! ## C5: merging the same batch again -/

theorem strictDesc_take_drop {l : List Item} (h : StrictDesc l) (n : Nat) :
    ∀ e ∈ l.take n, ∀ y ∈ l.drop n, y.Updated < e.Updated := by
  have h2 : StrictDesc (l.take n ++ l.drop n) := by rw [List.take_append_drop]; exact h
  exact (List.pairwise_append.mp h2).2.2

/-- Items appended to a feed that are all older than its items are cut again,
when the feed is full. -/
theorem take_sort_append_older (S : SliceSorter) (F1 added : List Item) (hF : StrictDesc F1)
    (hle : F1.length ≤ 10) (hlen : F1.length = 10 ∨ added = [])
    (hold : ∀ e ∈ F1, ∀ x ∈ added, x.Updated < e.Updated)
    (hne : added.Pairwise (fun a b => a.Updated ≠ b.Updated)) :
    (S.sort lessUpdated (F1 ++ added)).take 10 = F1 := by
  have hsa : StrictDesc (S.sort lessUpdated added) := by
    refine strictDesc_of_sortedDesc (sort_sortedDesc S added) ?_
    rw [List.Perm.pairwise_iff (fun {a b} (hab : a.Updated ≠ b.Updated) => hab.symm)
      (S.perm lessUpdated added)]
    exact hne
  have hT : StrictDesc (F1 ++ S.sort lessUpdated added) := by
    unfold StrictDesc
    rw [List.pairwise_append]
    refine ⟨hF, hsa, ?_⟩
    intro e he x hx
    exact hold e he x ((S.perm lessUpdated added).mem_iff.mp hx)
  have hsort : S.sort lessUpdated (F1 ++ added) = F1 ++ S.sort lessUpdated added :=
    sort_eq_of_perm_strictDesc S (List.Perm.append_left F1 (S.perm lessUpdated added).symm) hT
  rw [hsort]
  rcases hlen with hlen | hlen
  · rw [← hlen]
    exact List.take_left' rfl
  · subst hlen
    have h0 : S.sort lessUpdated [] = [] := List.Perm.eq_nil (S.perm lessUpdated [])
    rw [h0, List.append_nil]
    exact List.take_of_length_le hle

theorem sort_strictDesc (S : SliceSorter) (F B : List Item) (hd : DistinctIds F)
    (hk : IdsMatchTimes (F ++ B)) : StrictDesc (S.sort lessUpdated (dedupAppend F B)) := by
  refine strictDesc_of_sortedDesc (sort_sortedDesc S _) ?_
  rw [List.Perm.pairwise_iff (fun {a b} (hab : a.Updated ≠ b.Updated) => hab.symm)
    (S.perm lessUpdated (dedupAppend F B))]
  refine (dedupAppend_distinct F B hd).imp_of_mem ?_
  intro a b ha hb hab ht
  exact hab ((hk a (List.mem_append.mpr (mem_dedupAppend ha)) b
    (List.mem_append.mpr (mem_dedupAppend hb))).mpr ht)

theorem mem_dedupAppend_of_mem_mergeItems (S : SliceSorter) {F B : List Item} {x : Item}
    (h : x ∈ mergeItems S F B) : x ∈ dedupAppend F B :=
  (S.perm lessUpdated (dedupAppend F B)).mem_iff.mp ((mergeItems_sublist S F B).subset h)

/-- Merging a batch into the outcome of its own merge changes no item. -/
theorem mergeItems_twice (S : SliceSorter) (F B : List Item) (hd : DistinctIds F)
    (hk : IdsMatchTimes (F ++ B)) :
    mergeItems S (mergeItems S F B) B = mergeItems S F B := by
  have hS1 := sort_strictDesc S F B hd hk
  have hF1strict : StrictDesc (mergeItems S F B) := hS1.sublist (mergeItems_sublist S F B)
  have hF1dist := mergeItems_distinct S F B hd
  have hin : ∀ x ∈ mergeItems S F B, x ∈ F ++ B := fun x hx =>
    List.mem_append.mpr (mem_dedupAppend (mem_dedupAppend_of_mem_mergeItems S hx))
  obtain ⟨added, hL2, hsubl⟩ := dedupAppend_eq_append (mergeItems S F B) B
  have hL2dist : DistinctIds (mergeItems S F B ++ added) := by
    rw [← hL2]
    exact dedupAppend_distinct _ B hF1dist
  have hcross := (List.pairwise_append.mp hL2dist).2.2
  have hinB : ∀ x ∈ added, x ∈ F ++ B := fun x hx =>
    List.mem_append_right _ (hsubl.subset hx)
  have hne : added.Pairwise (fun a b => a.Updated ≠ b.Updated) := by
    refine (List.pairwise_append.mp hL2dist).2.1.imp_of_mem ?_
    intro a b ha hb hab ht
    exact hab ((hk a (hinB a ha) b (hinB b hb)).mpr ht)
  have hold : ∀ e ∈ mergeItems S F B, ∀ x ∈ added, x.Updated < e.Updated := by
    intro e he x hx
    have hxB : x ∈ B := hsubl.subset hx
    obtain ⟨y, hy, hyid⟩ := (present_iff _ _).mp (present_dedupAppend F B x hxB)
    have hyt : y.Updated = x.Updated :=
      (hk y (List.mem_append.mpr (mem_dedupAppend hy)) x (List.mem_append_right _ hxB)).mp hyid
    have hyS : y ∈ S.sort lessUpdated (dedupAppend F B) :=
      (S.perm lessUpdated (dedupAppend F B)).mem_iff.mpr hy
    have hynot : y ∉ mergeItems S F B := fun hyF => hcross y hyF x hx hyid
    rw [← List.take_append_drop 10 (S.sort lessUpdated (dedupAppend F B)),
      List.mem_append] at hyS
    rw [mergeItems_eq] at hynot he
    rcases hyS with hyS | hyS
    · exact absurd hyS hynot
    · rw [← hyt]
      exact strictDesc_take_drop hS1 10 e he y hyS
  have hlen : (mergeItems S F B).length = 10 ∨ added = [] := by
    by_cases hle : (dedupAppend F B).length ≤ 10
    · right
      have hperm := mergeItems_perm_of_length_le S F B hle
      have hall : ∀ c ∈ B, present c.Id (mergeItems S F B) = true := by
        intro c hc
        obtain ⟨y, hy, hyid⟩ := (present_iff _ _).mp (present_dedupAppend F B c hc)
        exact (present_iff _ _).mpr ⟨y, hperm.mem_iff.mpr hy, hyid⟩
      have h0 := dedupAppend_of_all_present (mergeItems S F B) B hall
      rw [hL2] at h0
      exact List.append_right_eq_self.mp h0
    · left
      rw [mergeItems_eq, List.length_take, (S.perm lessUpdated (dedupAppend F B)).length_eq]
      omega
  rw [mergeItems_eq S (mergeItems S F B) B, hL2]
  exact take_sort_append_older S _ added hF1strict (mergeItems_length_le S F B) hlen hold hne

/-- C5 (as amended): on a feed satisfying the invariants and a batch such that,
among the feed's items and the candidates, two items share an id exactly when
they share `Updated`, the feed a merge returns is returned unchanged, items,
order and watermark, by a second merge of the same batch, also when the first
merge cut candidates off; and the merge returns whenever the feed or the batch
holds an item. -/
theorem merge_twice (S : SliceSorter) (f : Feed) (B : List Item) (hinv : FeedInv f)
    (hk : IdsMatchTimes (f.Items ++ B)) :
    (∀ f1, merge S f B = some f1 → merge S f1 B = some f1) ∧
      ((f.Items ≠ [] ∨ B ≠ []) → ∃ f1, merge S f B = some f1) := by
  refine ⟨?_, merge_returns S f B⟩
  intro f1 hm
  have hitems := merge_items S f f1 B hm
  obtain ⟨first, rest, hfr, hupd⟩ := merge_updated S f f1 B hm
  have h2 : mergeItems S f1.Items B = first :: rest := by
    rw [hitems, mergeItems_twice S f.Items B hinv.distinctIds hk, ← hitems, hfr]
  unfold merge
  rw [h2]
  cases f1
  simp only [Option.some.injEq, Feed.mk.injEq, true_and]
  exact ⟨hfr.symm, hupd.symm⟩

/-- The merge computed from any strictly descending arrangement of the
appended list: no sort honouring the contract can return another one. -/
theorem merge_eq_of_strictDesc (S : SliceSorter) (f : Feed) (B l2 : List Item)
    (first : Item) (rest : List Item) (hp : (dedupAppend f.Items B).Perm l2)
    (hs : StrictDesc l2) (ht : l2.take 10 = first :: rest) :
    merge S f B = some { f with Items := first :: rest, Updated := first.Updated } := by
  have hmi : mergeItems S f.Items B = first :: rest := by
    rw [mergeItems_eq, sort_eq_of_perm_strictDesc S hp hs, ht]
  unfold merge
  rw [hmi]

theorem fullFeed_inv : FeedInv fullFeed :=
  ⟨by decide, by decide, by decide, by decide⟩

/-- The full feed after release 10, published at 50, pushed release 0 out. -/
def fullFeedOnce : Feed :=
  { goFeed with
    Items := [sample "10" 50, sample "9" 9, sample "8" 8, sample "7" 7, sample "6" 6,
      sample "5" 5, sample "4" 4, sample "3" 3, sample "2" 2, sample "1" 1]
    Updated := 50 }

/-- The same feed after the id of release 0 came back with the time 100. -/
def fullFeedTwice : Feed :=
  { goFeed with
    Items := [sample "0" 100, sample "10" 50, sample "9" 9, sample "8" 8, sample "7" 7,
      sample "6" 6, sample "5" 5, sample "4" 4, sample "3" 3, sample "2" 2]
    Updated := 100 }

/-- C5 as stated fails.  The full feed (releases 9 to 0 at the instants 9 to 0)
satisfies the invariants; the batch holds the id of the stored release 0 with
the time 100 and a new release 10 at 50.  The first merge discards the
candidate 0 as a duplicate and cuts the stored release 0 off; the second merge
no longer finds the id 0, takes the candidate in as newest item and cuts
release 1 off.  This is so under every sort honouring the contract of
`sort.Slice`. -/
theorem merge_twice_differs :
    FeedInv fullFeed ∧
    (∀ S : SliceSorter,
      merge S fullFeed [sample "0" 100, sample "10" 50] = some fullFeedOnce ∧
      merge S fullFeedOnce [sample "0" 100, sample "10" 50] = some fullFeedTwice) ∧
    fullFeedOnce ≠ fullFeedTwice := by
  refine ⟨fullFeed_inv, fun S => ⟨?_, ?_⟩, by decide⟩
  · exact merge_eq_of_strictDesc S fullFeed [sample "0" 100, sample "10" 50]
      (sample "10" 50 :: fullFeed.Items) (sample "10" 50)
      (fullFeed.Items.take 9) (by decide) (by decide) (by decide)
  · exact merge_eq_of_strictDesc S fullFeedOnce [sample "0" 100, sample "10" 50]
      (sample "0" 100 :: fullFeedOnce.Items) (sample "0" 100)
      (fullFeedOnce.Items.take 9) (by decide) (by decide) (by decide)

/-- The full feed after release 10, published at 10, pushed release 0 out. -/
def fullFeedNext : Feed :=
  { goFeed with
    Items := [sample "10" 10, sample "9" 9, sample "8" 8, sample "7" 7, sample "6" 6,
      sample "5" 5, sample "4" 4, sample "3" 3, sample "2" 2, sample "1" 1]
    Updated := 10 }

/-- C5, an instance: the batch holds a new release 10, the stored release 0 and
an older release; the first merge cuts the candidate -5 and release 0 off, and
the second merge returns the same feed. -/
theorem merge_twice_witness :
    FeedInv fullFeed ∧
    IdsMatchTimes (fullFeed.Items ++ [sample "10" 10, sample "0" 0, sample "-5" (-5)]) ∧
    merge goSorter fullFeed [sample "10" 10, sample "0" 0, sample "-5" (-5)] =
      some fullFeedNext ∧
    merge goSorter fullFeedNext [sample "10" 10, sample "0" 0, sample "-5" (-5)] =
      some fullFeedNext :=
  ⟨fullFeed_inv, by decide, by decide,
    (merge_twice goSorter fullFeed [sample "10" 10, sample "0" 0, sample "-5" (-5)]
      fullFeed_inv (by decide)).1 fullFeedNext (by decide)⟩

/-! ## C9: a failed fetch leaves the feed alone -/

theorem collectReleases_error (C : Client) (M : Markup) (r : Repository)
    (after : List Repository) (owner name err : String)
    (ho : r.Owner.bind User.Login = some owner) (hn : r.Name = some name)
    (he : C.listReleases owner name = .error err) :
    ∀ (before : List Repository) (items : List Item), (∀ p ∈ before, Callable p) →
      ∃ msg, collectReleases C M (before ++ r :: after) items = some (.error msg) := by
  intro before
  induction before with
  | nil =>
    intro items _
    refine ⟨"Repositories.ListReleases returned error: " ++ err, ?_⟩
    simp only [List.nil_append, collectReleases, ho, hn, he]
  | cons p ps ih =>
    intro items hc
    have hp := hc p (List.mem_cons_self _ _)
    obtain ⟨o, hpo⟩ := Option.isSome_iff_exists.mp hp.1
    obtain ⟨n, hpn⟩ := Option.isSome_iff_exists.mp hp.2
    cases hl : C.listReleases o n with
    | error e =>
      refine ⟨"Repositories.ListReleases returned error: " ++ e, ?_⟩
      simp only [List.cons_append, collectReleases, hpo, hpn, hl]
    | ok releases =>
      obtain ⟨msg, hmsg⟩ := ih (items ++ releases.filterMap (releaseItem M p))
        (fun q hq => hc q (List.mem_cons_of_mem _ hq))
      refine ⟨msg, ?_⟩
      simp only [List.cons_append, collectReleases, hpo, hpn, hl]
      exact hmsg

/-- C9: in a cycle whose repository search fails, or in which a `ListReleases`
call fails, `getUpdates` returns an error (and with it no item, whatever the
repositories before the failing one had yielded), and the pass of
`checkUpdates` leaves the feed, items and watermark, as it was. -/
theorem refreshCycle_failure_keeps_feed (S : SliceSorter) (C : Client) (M : Markup)
    (language : String) (stars : Nat) (f : Feed)
    (h : (∃ err, C.searchRepositories (searchQuery language stars) = .error err) ∨
      (∃ repositories, C.searchRepositories (searchQuery language stars) = .ok repositories ∧
        ReleasesCallFails C repositories)) :
    ∃ msg, getUpdates C M (searchQuery language stars) = some (.error msg) ∧
      refreshCycle S C M language stars f = some f := by
  have key : ∃ msg, getUpdates C M (searchQuery language stars) = some (.error msg) := by
    rcases h with ⟨err, he⟩ | ⟨repositories, hr, before, r, after, owner, name, err, hsplit,
      hb, ho, hn, he⟩
    · exact ⟨"Search.Repositories returned error: " ++ err, by simp only [getUpdates, he]⟩
    · obtain ⟨msg, hmsg⟩ := collectReleases_error C M r after owner name err ho hn he before []
        hb
      refine ⟨msg, ?_⟩
      simp only [getUpdates, hr]
      rw [hsplit]
      exact hmsg
  obtain ⟨msg, hmsg⟩ := key
  refine ⟨msg, hmsg, ?_⟩
  unfold refreshCycle
  rw [hmsg]
  rfl

/-- A stand-in for the text libraries: Lean's `trim`, and a paragraph tag. -/
def sampleMarkup : Markup :=
  { trimSpace := String.trim, convert := fun text => .ok ("<p>" ++ text ++ "</p>") }

/-- The repository `octo/app`. -/
def repoApp : Repository :=
  { Owner := some { Login := some "octo" }, Name := some "app",
    FullName := some "octo/app", Description := some "An app" }

/-- The repository `octo/lib`. -/
def repoLib : Repository :=
  { Owner := some { Login := some "octo" }, Name := some "lib",
    FullName := some "octo/lib", Description := none }

/-- A published release of `octo/app`. -/
def releaseApp : RepositoryRelease :=
  { Prerelease := some false, Draft := some false, Body := some "Fixes", Name := some "v3",
    TagName := some "v3", HTMLURL := some "https://github.com/octo/app/releases/tag/v3",
    Author := some { Login := some "octocat" }, PublishedAt := some 300 }

/-- A client that finds two repositories, lists a release of the first and
fails on the second. -/
def failingClient : Client :=
  { searchRepositories := fun _ => .ok [repoApp, repoLib]
    listReleases := fun _ name =>
      if name = "app" then .ok [releaseApp] else .error "403 rate limit exceeded" }

/-- C9, an instance: the first repository yields a release, the call for the
second fails, and the feed of two releases is as before. -/
theorem refreshCycle_failure_keeps_feed_witness :
    releaseItem sampleMarkup repoApp releaseApp ≠ none ∧
    ∃ msg, getUpdates failingClient sampleMarkup (searchQuery "go" 1) = some (.error msg) ∧
      refreshCycle goSorter failingClient sampleMarkup "go" 1 twoFeed = some twoFeed :=
  ⟨by simp [releaseItem, releaseApp],
    refreshCycle_failure_keeps_feed goSorter failingClient sampleMarkup "go" 1 twoFeed
      (Or.inr ⟨[repoApp, repoLib], rfl, [repoApp], repoLib, [], "octo", "lib",
        "403 rate limit exceeded", rfl, by decide, rfl, rfl, rfl⟩)⟩

/-! ## C10: an evicted entry that is submitted again -/

theorem runMerges_distinct (S : SliceSorter) (batches : List (List Item)) :
    ∀ f f1 : Feed, DistinctIds f.Items → runMerges S f batches = some f1 →
      DistinctIds f1.Items := by
  induction batches with
  | nil =>
    intro f f1 hf h
    simp only [runMerges, Option.some.injEq] at h
    subst h
    exact hf
  | cons b bs ih =>
    intro f f1 hf h
    unfold runMerges at h
    cases hm : merge S f b with
    | none => rw [hm] at h; cases h
    | some f2 =>
      rw [hm] at h
      refine ih f2 f1 ?_ h
      rw [merge_items S f f2 b hm]
      exact mergeItems_distinct S f.Items b hf

/-- What an eviction tells: the feed is full afterwards, and no retained item
is earlier than the evicted one. -/
theorem evicts_full (S : SliceSorter) (f0 : Feed) (b1 : List Item) (f1 : Feed) (x : Item)
    (h : Evicts S f0 b1 f1 x) :
    f1.Items.length = 10 ∧ (∀ e ∈ f1.Items, x.Updated ≤ e.Updated) ∧
      (DistinctIds f0.Items → ∀ e ∈ f1.Items, e.Id ≠ x.Id) := by
  obtain ⟨hm, hx, hnot⟩ := h
  have hitems := merge_items S f0 f1 b1 hm
  rw [hitems, mergeItems_eq] at hnot ⊢
  have hxS : x ∈ S.sort lessUpdated (dedupAppend f0.Items b1) :=
    (S.perm lessUpdated _).mem_iff.mpr hx
  have hsplit := List.take_append_drop 10 (S.sort lessUpdated (dedupAppend f0.Items b1))
  have hxd : x ∈ (S.sort lessUpdated (dedupAppend f0.Items b1)).drop 10 := by
    rw [← hsplit, List.mem_append] at hxS
    exact hxS.resolve_left hnot
  have hlen : 10 < (S.sort lessUpdated (dedupAppend f0.Items b1)).length := by
    by_contra hle
    rw [List.drop_of_length_le (by omega)] at hxd
    cases hxd
  refine ⟨?_, ?_, ?_⟩
  · rw [List.length_take]
    omega
  · have hs : SortedDesc ((S.sort lessUpdated (dedupAppend f0.Items b1)).take 10 ++
        (S.sort lessUpdated (dedupAppend f0.Items b1)).drop 10) := by
      rw [hsplit]
      exact sort_sortedDesc S _
    intro e he
    exact (List.pairwise_append.mp hs).2.2 e he x hxd
  · intro hd
    have hs : DistinctIds ((S.sort lessUpdated (dedupAppend f0.Items b1)).take 10 ++
        (S.sort lessUpdated (dedupAppend f0.Items b1)).drop 10) := by
      rw [hsplit]
      unfold DistinctIds
      rw [List.Perm.pairwise_iff (fun {a b} (hab : a.Id ≠ b.Id) => hab.symm)
        (S.perm lessUpdated (dedupAppend f0.Items b1))]
      exact dedupAppend_distinct f0.Items b1 hd
    intro e he
    exact (List.pairwise_append.mp hs).2.2 e he x hxd

/-- In a list sorted descending that holds `n` items later than `t`, the first
`n` items are later than `t`. -/
theorem take_later_of_sortedDesc (t : Time) :
    ∀ (l : List Item) (n : Nat), SortedDesc l →
      n ≤ l.countP (fun e => decide (t < e.Updated)) → ∀ e ∈ l.take n, t < e.Updated := by
  intro l
  induction l with
  | nil => intro n _ _ e he; simp at he
  | cons a l ih =>
    intro n hs hc e he
    cases n with
    | zero => simp at he
    | succ m =>
      rw [List.take_succ_cons] at he
      have hs2 := List.pairwise_cons.mp hs
      by_cases ha : t < a.Updated
      · rcases List.mem_cons.mp he with rfl | he
        · exact ha
        · refine ih m hs2.2 ?_ e he
          rw [List.countP_cons_of_pos _ _ (by simpa using ha)] at hc
          omega
      · exfalso
        have h0 : l.countP (fun e => decide (t < e.Updated)) = 0 := by
          rw [List.countP_eq_zero]
          intro b hb
          have := hs2.1 b hb
          simp only [decide_eq_true_eq, not_lt]
          exact le_trans this (not_lt.mp ha)
        rw [List.countP_cons_of_neg _ _ (by simpa using ha), h0] at hc
        omega

/-- A full feed whose items are all later than `t` stays so under a merge. -/
theorem mergeItems_later (S : SliceSorter) (F B : List Item) (t : Time)
    (hlen : F.length = 10) (hF : ∀ e ∈ F, t < e.Updated) :
    (mergeItems S F B).length = 10 ∧ ∀ e ∈ mergeItems S F B, t < e.Updated := by
  obtain ⟨added, hL, _⟩ := dedupAppend_eq_append F B
  have hcount : 10 ≤ (S.sort lessUpdated (dedupAppend F B)).countP
      (fun e => decide (t < e.Updated)) := by
    rw [(S.perm lessUpdated (dedupAppend F B)).countP_eq, hL, List.countP_append]
    have : F.countP (fun e => decide (t < e.Updated)) = F.length := by
      rw [List.countP_eq_length]
      intro e he
      simpa using hF e he
    omega
  rw [mergeItems_eq]
  refine ⟨?_, take_later_of_sortedDesc t _ 10 (sort_sortedDesc S _) hcount⟩
  rw [List.length_take]
  have := List.countP_le_length (fun e => decide (t < e.Updated))
    (l := S.sort lessUpdated (dedupAppend F B))
  omega

theorem runMerges_later (S : SliceSorter) (t : Time) (batches : List (List Item)) :
    ∀ f f1 : Feed, f.Items.length = 10 → (∀ e ∈ f.Items, t < e.Updated) →
      runMerges S f batches = some f1 →
      f1.Items.length = 10 ∧ ∀ e ∈ f1.Items, t < e.Updated := by
  induction batches with
  | nil =>
    intro f f1 hlen hf h
    simp only [runMerges, Option.some.injEq] at h
    subst h
    exact ⟨hlen, hf⟩
  | cons b bs ih =>
    intro f f1 hlen hf h
    unfold runMerges at h
    cases hm : merge S f b with
    | none => rw [hm] at h; cases h
    | some f2 =>
      rw [hm] at h
      have h2 := mergeItems_later S f.Items b t hlen hf
      rw [← merge_items S f f2 b hm] at h2
      exact ih f2 f1 h2.1 h2.2 h

/-- Under every sort honouring the contract of `sort.Slice`.  First, a run from
the fresh feed: ten releases fill the feed, the merge of a new release 10 evicts
release 0, and a later batch that submits the id of release 0 with a later
`Updated` puts that id back into the feed.  Second, in general: when the
evicted item's `Updated` is the `Updated` of no retained item, then after any
further merges, whatever their batches resubmit, every item of the feed is
strictly later than the evicted one.  An evicted item submitted again unchanged
can therefore only return in the place of an item it ties with. -/
theorem evicted_entry_without_tie (S : SliceSorter) :
    (runMerges S goFeed [fullFeed.Items] = some fullFeed ∧
      Evicts S fullFeed [sample "10" 50] fullFeedOnce (sample "0" 0) ∧
      merge S fullFeedOnce [sample "0" 100] = some fullFeedTwice ∧
      sample "0" 100 ∈ fullFeedTwice.Items) ∧
    (∀ (f0 : Feed) (b1 : List Item) (f1 : Feed) (x : Item) (later : List (List Item))
      (f3 : Feed), Evicts S f0 b1 f1 x → (∀ e ∈ f1.Items, e.Updated ≠ x.Updated) →
        runMerges S f1 later = some f3 → ∀ e ∈ f3.Items, x.Updated < e.Updated) := by
  refine ⟨⟨?_, ⟨?_, by decide, by decide⟩, ?_, by decide⟩, ?_⟩
  · have h := merge_eq_of_strictDesc S goFeed fullFeed.Items fullFeed.Items (sample "9" 9)
      (fullFeed.Items.drop 1) (by decide) (by decide) (by decide)
    unfold runMerges
    rw [h]
    rfl
  · exact merge_eq_of_strictDesc S fullFeed [sample "10" 50]
      (sample "10" 50 :: fullFeed.Items) (sample "10" 50)
      (fullFeed.Items.take 9) (by decide) (by decide) (by decide)
  · exact merge_eq_of_strictDesc S fullFeedOnce [sample "0" 100]
      (sample "0" 100 :: fullFeedOnce.Items) (sample "0" 100)
      (fullFeedOnce.Items.take 9) (by decide) (by decide) (by decide)
  · intro f0 b1 f1 x later f3 hev hne hrun
    obtain ⟨hlen, hle, _⟩ := evicts_full S f0 b1 f1 x hev
    exact (runMerges_later S x.Updated later f1 f3 hlen
      (fun e he => lt_of_le_of_ne (hle e he) (Ne.symm (hne e he))) hrun).2

/-- The first batch of the run: seven releases of the instant 3, one of the
instant 2, and three of the instant 1, the last of them `x`. -/
def firstBatch : List Item :=
  [sample "f0" 3, sample "f1" 3, sample "f2" 3, sample "f3" 3, sample "f4" 3, sample "f5" 3,
    sample "f6" 3, sample "f7" 2, sample "f8" 1, sample "f9" 1, sample "x" 1]

/-- The feed after the first batch: `x`, the eleventh item, is cut off. -/
def afterFirst : Feed :=
  { goFeed with
    Items := [sample "f0" 3, sample "f1" 3, sample "f2" 3, sample "f3" 3, sample "f4" 3,
      sample "f5" 3, sample "f6" 3, sample "f7" 2, sample "f8" 1, sample "f9" 1]
    Updated := 3 }

/-- The second batch: three new releases, and `x` again, unchanged. -/
def secondBatch : List Item :=
  [sample "n0" 0, sample "n1" 1, sample "x" 1, sample "n3" 1]

/-- The feed after the second batch: `x` is back, `f8` is cut off. -/
def afterSecond : Feed :=
  { goFeed with
    Items := [sample "f6" 3, sample "f1" 3, sample "f2" 3, sample "f3" 3, sample "f4" 3,
      sample "f5" 3, sample "f0" 3, sample "f7" 2, sample "x" 1, sample "f9" 1]
    Updated := 3 }

/-- C10: there are a feed reachable from the feed as `checkUpdates` creates it
and batches such that an item evicted by the trim step of one merge is in the
feed again after a later merge whose batch submits it again, same id and same
`Updated`.  The first batch holds eleven releases, of which `x`, published at
the instant of `f8` and `f9`, is sorted last and cut off.  The second batch
holds `x` again among four candidates: the scan finds the id of `x` in none of
the ten retained items and appends it, `sort.Slice` sorts the fourteen items
(its outcome is the list given first), placing `x` before `f8`, and the trim
keeps `x` and cuts `f8` off. -/
theorem evicted_entry_returns :
    sortSlice lessUpdated (afterFirst.Items ++ secondBatch) =
      [sample "f6" 3, sample "f1" 3, sample "f2" 3, sample "f3" 3, sample "f4" 3,
        sample "f5" 3, sample "f0" 3, sample "f7" 2, sample "x" 1, sample "f9" 1,
        sample "n1" 1, sample "f8" 1, sample "n3" 1, sample "n0" 0] ∧
    Evicts goSorter goFeed firstBatch afterFirst (sample "x" 1) ∧
    sample "x" 1 ∈ secondBatch ∧
    merge goSorter afterFirst secondBatch = some afterSecond ∧
    sample "x" 1 ∈ afterSecond.Items ∧
    EvictedReturns goSorter := by
  have h1 : Evicts goSorter goFeed firstBatch afterFirst (sample "x" 1) :=
    ⟨by decide, by decide, by decide⟩
  have h2 : merge goSorter afterFirst secondBatch = some afterSecond := by decide
  exact ⟨by decide, h1, by decide, h2, by decide,
    "GitHub Go releases feed", [], goFeed, firstBatch, afterFirst, sample "x" 1, [],
    afterFirst, secondBatch, afterSecond, rfl, h1, rfl,
    ⟨sample "x" 1, by decide, rfl, rfl⟩, h2, ⟨sample "x" 1, by decide, rfl, rfl⟩⟩

/-! ## Ties and the second merge of a batch -/

/-- A feed of six releases that satisfies the invariants. -/
def sixFeed : Feed :=
  { goFeed with
    Items := [sample "f0" 23, sample "f1" 15, sample "f2" 14, sample "f3" 13, sample "f4" 10,
      sample "f5" 9]
    Updated := 23 }

/-- Seven new releases; `b2` is published at the instant of the stored `f3`. -/
def sevenNew : List Item :=
  [sample "b0" 12, sample "b1" 4, sample "b2" 13, sample "b3" 2, sample "b4" 19,
    sample "b5" 29, sample "b6" 7]

/-- Under `sort.Slice` itself the condition of C5 on equal `Updated` cannot be
dropped: all ids are different, `b2` ties with `f3`, and the two change places
from the first merge of the batch to the second. -/
theorem merge_twice_differs_on_tie :
    FeedInv sixFeed ∧
    merge goSorter sixFeed sevenNew =
      some { goFeed with
        Items := [sample "b5" 29, sample "f0" 23, sample "b4" 19, sample "f1" 15,
          sample "f2" 14, sample "b2" 13, sample "f3" 13, sample "b0" 12, sample "f4" 10,
          sample "f5" 9]
        Updated := 29 } ∧
    merge goSorter
        { goFeed with
          Items := [sample "b5" 29, sample "f0" 23, sample "b4" 19, sample "f1" 15,
            sample "f2" 14, sample "b2" 13, sample "f3" 13, sample "b0" 12, sample "f4" 10,
            sample "f5" 9]
          Updated := 29 } sevenNew =
      some { goFeed with
        Items := [sample "b5" 29, sample "f0" 23, sample "b4" 19, sample "f1" 15,
          sample "f2" 14, sample "f3" 13, sample "b2" 13, sample "b0" 12, sample "f4" 10,
          sample "f5" 9]
        Updated := 29 } :=
  ⟨⟨by decide, by decide, by decide, by decide⟩, by decide, by decide⟩

end ReleaseFeed
